import Mathlib

/-!
Verification of the Deutsch-Josza tutorial notebook
(src/reference/algorithms/deutsch_josza.ipynb).

The notebook selects random oracle parameters, appends a sequence of gates to
a circuit named djCircuit, executes it on a backend and plots a histogram of
the returned counts; the real-device cell additionally filters small counts
into a synthetic key named other_bitstring.  The definitions below embed the
notebook cells; the theorems settle the frozen claims about them.
-/

namespace DJNotebook

/-- The gate calls that the notebook appends to the circuit, exactly those
used in cell 9: Hadamard, Pauli-X, identity, CNOT (control, target), barrier,
and measurement of a qubit into a classical bit. -/
inductive Gate : Type
  | h (q : Nat)
  | x (q : Nat)
  | iden (q : Nat)
  | cx (control target : Nat)
  | barrier
  | measure (q c : Nat)
  deriving DecidableEq

/-- Size of the quantum register qr: n qubits for querying the oracle and one
qubit for storing the answer (cell 9). -/
def qrSize (n : Nat) : Nat := n + 1

/-- Size of the classical register cr, recording the measurement on the first
register (cell 9). -/
def crSize (n : Nat) : Nat := n

/-- The oracle section of cell 9, between the two barriers.  When oracleType
is 0 it appends one X gate on the answer qubit if oracleValue is 1 and one
identity gate otherwise; when oracleType is nonzero it appends, for each index
i below n whose bit is set in the hidden parameter a, a CNOT from query qubit
i to the answer qubit n. -/
def oracleGates (n oracleType oracleValue a : Nat) : List Gate :=
  if oracleType = 0 then
    if oracleValue = 1 then [Gate.x n] else [Gate.iden n]
  else
    (List.range n).filterMap fun i =>
      if a &&& (1 <<< i) != 0 then some (Gate.cx i n) else none

/-- The gate calls of cell 9 before the oracle section: a Hadamard on each of
the n query qubits, then X and Hadamard on the answer qubit, then the barrier
marking the beginning of the oracle. -/
def djPre (n : Nat) : List Gate :=
  (List.range n).map Gate.h ++ [Gate.x n, Gate.h n, Gate.barrier]

/-- The gate calls of cell 9 after the oracle section: the barrier marking the
end of the oracle, a Hadamard on each query qubit, and the measurement of each
query qubit i into classical bit i. -/
def djPost (n : Nat) : List Gate :=
  [Gate.barrier] ++ (List.range n).map Gate.h
    ++ (List.range n).map fun i => Gate.measure i i

/-- The full sequence of gate calls appended to the circuit djCircuit in
cell 9, in program order. -/
def djCircuit (n oracleType oracleValue a : Nat) : List Gate :=
  djPre n ++ oracleGates n oracleType oracleValue a ++ djPost n

/-- Action of the classical (basis-state preserving) gates on a computational
basis state, given as an assignment of a bit to every qubit index: X flips its
qubit, CNOT flips the target when the control bit is set, and the identity
gate and barriers leave the state unchanged.  Hadamard and measurement do not
preserve basis states and never occur in the oracle section, which is the only
place this semantics is applied. -/
def classicalStep (s : Nat → Bool) : Gate → (Nat → Bool)
  | Gate.x q => fun i => if i = q then !(s q) else s i
  | Gate.cx control target =>
      fun i => if i = target then xor (s target) (s control) else s i
  | _ => s

/-- Computational basis state encoding a natural number: qubit i holds bit i.
For an n-bit input x below 2 to the n, the answer qubit n holds 0. -/
def initState (x : Nat) : Nat → Bool := fun i => x.testBit i

/-- The boolean function implemented by the oracle section: the value of the
answer qubit qr n after applying the oracle gates to the basis state encoding
the n-bit input x with the answer qubit cleared. -/
def oracleOutput (n oracleType oracleValue a x : Nat) : Bool :=
  ((oracleGates n oracleType oracleValue a).foldl classicalStep (initState x)) n

/-- Inner product modulo 2 of the low m bits of a and x, that is, the parity
of a AND x on m-bit inputs. -/
def parityAnd : Nat → Nat → Nat → Bool
  | 0, _, _ => false
  | m + 1, a, x => xor (parityAnd m a x) (a.testBit m && x.testBit m)

lemma and_shift_ne_zero (a i : Nat) : (a &&& (1 <<< i) != 0) = a.testBit i := by
  have hp : (2 : Nat) ^ i ≠ 0 := (Nat.pos_pow_of_pos i (by norm_num)).ne'
  rw [Nat.one_shiftLeft, Nat.and_two_pow]
  cases h : a.testBit i <;> simp [hp]

lemma classicalStep_cx_target (s : Nat → Bool) (c t : Nat) :
    classicalStep s (Gate.cx c t) t = xor (s t) (s c) := by
  simp [classicalStep]

lemma classicalStep_cx_other (s : Nat → Bool) (c t j : Nat) (hj : j ≠ t) :
    classicalStep s (Gate.cx c t) j = s j := by
  simp [classicalStep, hj]

lemma foldl_cx_spec (n a x : Nat) : ∀ m, m ≤ n →
    (∀ j, j ≠ n →
      (((List.range m).filterMap fun i =>
          if a &&& (1 <<< i) != 0 then some (Gate.cx i n) else none).foldl
            classicalStep (initState x)) j = initState x j) ∧
    (((List.range m).filterMap fun i =>
        if a &&& (1 <<< i) != 0 then some (Gate.cx i n) else none).foldl
          classicalStep (initState x)) n = xor (x.testBit n) (parityAnd m a x) := by
  intro m
  induction m with
  | zero =>
    intro _
    exact ⟨fun j _ => rfl, by simp [parityAnd, initState]⟩
  | succ m ih =>
    intro hm
    have hm' : m ≤ n := Nat.le_of_succ_le hm
    have hmn : m ≠ n := by omega
    obtain ⟨ihj, ihn⟩ := ih hm'
    rw [List.range_succ, List.filterMap_append]
    by_cases hbit : (a &&& (1 <<< m) != 0) = true
    · have hne : a &&& (1 <<< m) ≠ 0 := by simpa using hbit
      have hsing : (List.filterMap (fun i =>
          if a &&& (1 <<< i) != 0 then some (Gate.cx i n) else none) [m])
          = [Gate.cx m n] := by
        simp [hne]
      rw [hsing, List.foldl_append]
      have habit : a.testBit m = true := by rw [← and_shift_ne_zero]; exact hbit
      constructor
      · intro j hj
        rw [List.foldl_cons, List.foldl_nil, classicalStep_cx_other _ _ _ _ hj]
        exact ihj j hj
      · rw [List.foldl_cons, List.foldl_nil, classicalStep_cx_target,
          ihn, ihj m hmn]
        simp only [parityAnd, habit, Bool.true_and, initState]
        cases x.testBit n <;> cases parityAnd m a x <;> cases x.testBit m <;> rfl
    · have hne : a &&& (1 <<< m) = 0 := by simpa using hbit
      have hnil : (List.filterMap (fun i =>
          if a &&& (1 <<< i) != 0 then some (Gate.cx i n) else none) [m])
          = [] := by
        simp [hne]
      have habit : a.testBit m = false := by
        rw [← and_shift_ne_zero]
        simp [hne]
      rw [hnil, List.append_nil]
      refine ⟨ihj, ?_⟩
      rw [ihn]
      simp [parityAnd, habit]

lemma oracleOutput_balanced (n oracleValue a x : Nat) (hx : x < 2 ^ n) :
    oracleOutput n 1 oracleValue a x = parityAnd n a x := by
  have h := (foldl_cx_spec n a x n (Nat.le_refl n)).2
  unfold oracleOutput oracleGates
  rw [if_neg (by norm_num), h, Nat.testBit_lt_two_pow hx, Bool.false_xor]

lemma oracleOutput_constant (n oracleValue a x : Nat) (hx : x < 2 ^ n) :
    oracleOutput n 0 oracleValue a x = decide (oracleValue = 1) := by
  unfold oracleOutput oracleGates
  rw [if_pos rfl]
  by_cases hv : oracleValue = 1
  · simp [hv, classicalStep, initState, Nat.testBit_lt_two_pow hx]
  · simp [hv, classicalStep, initState, Nat.testBit_lt_two_pow hx]

lemma parityAnd_congr (a : Nat) : ∀ (m x y : Nat),
    (∀ i, i < m → x.testBit i = y.testBit i) → parityAnd m a x = parityAnd m a y := by
  intro m
  induction m with
  | zero => intro x y _; rfl
  | succ m ih =>
    intro x y hxy
    simp only [parityAnd]
    rw [ih x y fun i hi => hxy i (Nat.lt_succ_of_lt hi), hxy m (Nat.lt_succ_self m)]

lemma parityAnd_flip (a : Nat) : ∀ (m j x : Nat), j < m → a.testBit j = true →
    parityAnd m a (x ^^^ (1 <<< j)) = !(parityAnd m a x) := by
  intro m
  induction m with
  | zero => intro j x hj _; exact absurd hj (Nat.not_lt_zero j)
  | succ m ih =>
    intro j x hj ha
    simp only [parityAnd]
    rcases Nat.lt_succ_iff_lt_or_eq.mp hj with hj' | heq
    · rw [ih j x hj' ha]
      have hbit : (x ^^^ (1 <<< j)).testBit m = x.testBit m := by
        rw [Nat.one_shiftLeft, Nat.testBit_xor,
          Nat.testBit_two_pow_of_ne (Nat.ne_of_lt hj')]
        cases x.testBit m <;> rfl
      rw [hbit]
      cases parityAnd m a x <;> cases (a.testBit m && x.testBit m) <;> rfl
    · rw [heq] at ha ⊢
      have hinner : parityAnd m a (x ^^^ (1 <<< m)) = parityAnd m a x := by
        apply parityAnd_congr
        intro i hi
        rw [Nat.one_shiftLeft, Nat.testBit_xor,
          Nat.testBit_two_pow_of_ne (Nat.ne_of_gt hi)]
        cases x.testBit i <;> rfl
      have hbit : (x ^^^ (1 <<< m)).testBit m = !(x.testBit m) := by
        rw [Nat.one_shiftLeft, Nat.testBit_xor, Nat.testBit_two_pow_self]
        cases x.testBit m <;> rfl
      rw [hinner, hbit, ha]
      cases parityAnd m a x <;> cases x.testBit m <;> rfl

lemma parityAnd_balanced (n a : Nat) (h1 : 1 ≤ a) (h2 : a < 2 ^ n) :
    ((Finset.range (2 ^ n)).filter fun x => parityAnd n a x = false).card
      = 2 ^ (n - 1) := by
  obtain ⟨j, hj, hmax⟩ := Nat.exists_most_significant_bit (show a ≠ 0 by omega)
  have hjn : j < n := by
    by_contra hge
    have hlt : a < 2 ^ j :=
      lt_of_lt_of_le h2 (Nat.pow_le_pow_right (by norm_num) (Nat.le_of_not_lt hge))
    rw [Nat.testBit_lt_two_pow hlt] at hj
    exact Bool.noConfusion hj
  have hpowlt : (1 <<< j) < 2 ^ n := by
    rw [Nat.one_shiftLeft]
    exact Nat.pow_lt_pow_right (by norm_num) hjn
  have hcard :
      ((Finset.range (2 ^ n)).filter fun x => parityAnd n a x = false).card
        = ((Finset.range (2 ^ n)).filter fun x => ¬(parityAnd n a x = false)).card := by
    apply Finset.card_bij fun x _ => x ^^^ (1 <<< j)
    · intro x hx
      simp only [Finset.mem_filter, Finset.mem_range] at hx ⊢
      refine ⟨Nat.xor_lt_two_pow hx.1 hpowlt, ?_⟩
      rw [parityAnd_flip a n j x hjn hj, hx.2]
      simp
    · intro x _ y _ hxy
      have := congrArg (fun z => z ^^^ (1 <<< j)) hxy
      simpa [Nat.xor_assoc, Nat.xor_self, Nat.xor_zero] using this
    · intro y hy
      simp only [Finset.mem_filter, Finset.mem_range] at hy
      refine ⟨y ^^^ (1 <<< j), ?_, ?_⟩
      · simp only [Finset.mem_filter, Finset.mem_range]
        refine ⟨Nat.xor_lt_two_pow hy.1 hpowlt, ?_⟩
        rw [parityAnd_flip a n j y hjn hj]
        simp only [Bool.not_eq_false] at hy
        rw [hy.2]
        rfl
      · rw [Nat.xor_cancel_right]
  have hsplit := Finset.filter_card_add_filter_neg_card_eq_card
    (s := Finset.range (2 ^ n)) fun x => parityAnd n a x = false
  rw [Finset.card_range] at hsplit
  have hn : 1 ≤ n := by
    rcases n with _ | n
    · simp at h2; omega
    · omega
  have hpow : 2 ^ n = 2 * 2 ^ (n - 1) := by
    conv_lhs => rw [show n = (n - 1) + 1 by omega]
    rw [pow_succ]
    ring
  omega

/-- C1: for every hidden parameter a with 1 <= a < 2 ^ n chosen for the
balanced oracle (oracleType 1), the boolean function implemented by the
oracle's CNOT sequence outputs 0 on exactly half of the 2 ^ n inputs: the
simulated balanced oracle is in fact balanced. -/
theorem balanced_oracle_is_balanced (n oracleValue a : Nat)
    (h1 : 1 ≤ a) (h2 : a < 2 ^ n) :
    ((Finset.range (2 ^ n)).filter
        fun x => oracleOutput n 1 oracleValue a x = false).card
      = 2 ^ (n - 1) := by
  have hfe : (Finset.range (2 ^ n)).filter
        (fun x => oracleOutput n 1 oracleValue a x = false)
      = (Finset.range (2 ^ n)).filter fun x => parityAnd n a x = false := by
    apply Finset.filter_congr
    intro x hx
    rw [oracleOutput_balanced n oracleValue a x (Finset.mem_range.mp hx)]
  rw [hfe]
  exact parityAnd_balanced n a h1 h2

/-- Witness for C1 at n = 2, a = 1: the hypotheses hold and the oracle output
is 0 on exactly 2 of the 4 inputs. -/
theorem balanced_oracle_is_balanced_witness :
    1 ≤ 1 ∧ 1 < 2 ^ 2 ∧
      ((Finset.range (2 ^ 2)).filter
          fun x => oracleOutput 2 1 0 1 x = false).card = 2 ^ (2 - 1) :=
  ⟨by decide, by decide, balanced_oracle_is_balanced 2 0 1 (by decide) (by decide)⟩

/-- C2: when oracleType is 0, the oracle portion of the circuit (one X gate on
the answer qubit if oracleValue is 1, otherwise one identity gate) implements
a constant boolean function: on every n-bit input x its output bit equals
oracleValue. -/
theorem constant_oracle_is_constant (n oracleValue a x : Nat)
    (hv : oracleValue < 2) (hx : x < 2 ^ n) :
    (oracleOutput n 0 oracleValue a x).toNat = oracleValue := by
  rw [oracleOutput_constant n oracleValue a x hx]
  interval_cases oracleValue <;> rfl

/-- Witness for C2 at n = 1, oracleValue = 1, input x = 0. -/
theorem constant_oracle_is_constant_witness :
    1 < 2 ∧ 0 < 2 ^ 1 ∧ (oracleOutput 1 0 1 0 0).toNat = 1 :=
  ⟨by decide, by decide, constant_oracle_is_constant 1 1 0 0 (by decide) (by decide)⟩

/-- Counterexample to C3: with n = 15 as in the notebook, the two constant
oracle draws (oracleValue 0 versus oracleValue 1) lead to different gate
sequences, so the appended sequence is not independent of the randomly
selected oracle parameters. -/
theorem djCircuit_depends_on_params :
    djCircuit 15 0 0 1 ≠ djCircuit 15 0 1 1 := by
  decide

lemma djPre_length (n : Nat) : (djPre n).length = n + 3 := by
  simp [djPre]

lemma djPost_length (n : Nat) : (djPost n).length = 2 * n + 1 := by
  simp [djPost]
  omega

/-- C3 amended: the circuit-construction step is fixed outside the oracle
section: for any two draws of the oracle parameters, the gate calls before
the first barrier and the gate calls from the second barrier on are the same;
only the oracle section between the two barriers depends on oracleType,
oracleValue and a. -/
theorem djCircuit_fixed_outside_oracle
    (n oracleType oracleValue a oracleType' oracleValue' a' : Nat) :
    (djCircuit n oracleType oracleValue a).take (n + 3)
        = (djCircuit n oracleType' oracleValue' a').take (n + 3) ∧
    (djCircuit n oracleType oracleValue a).drop
        ((djCircuit n oracleType oracleValue a).length - (2 * n + 1))
      = (djCircuit n oracleType' oracleValue' a').drop
        ((djCircuit n oracleType' oracleValue' a').length - (2 * n + 1)) := by
  have hpre : ∀ t v b, (djCircuit n t v b).take (n + 3) = djPre n := by
    intro t v b
    rw [djCircuit, List.append_assoc, ← djPre_length n, List.take_left]
  have hpost : ∀ t v b, (djCircuit n t v b).drop
      ((djCircuit n t v b).length - (2 * n + 1)) = djPost n := by
    intro t v b
    have hassoc : djCircuit n t v b
        = (djPre n ++ oracleGates n t v b) ++ djPost n := by
      rw [djCircuit, List.append_assoc]
    have hlen : (djCircuit n t v b).length - (2 * n + 1)
        = (djPre n ++ oracleGates n t v b).length := by
      rw [hassoc, List.length_append, djPost_length]
      omega
    rw [hlen, hassoc, List.drop_left]
  exact ⟨(hpre _ _ _).trans (hpre _ _ _).symm,
    (hpost _ _ _).trans (hpost _ _ _).symm⟩

/-- Holds exactly on measurement gates. -/
def isMeasure : Gate → Bool
  | Gate.measure _ _ => true
  | _ => false

lemma filter_isMeasure_map_h (n : Nat) :
    ((List.range n).map Gate.h).filter isMeasure = [] := by
  rw [List.filter_eq_nil_iff]
  intro g hg
  obtain ⟨i, _, rfl⟩ := List.mem_map.mp hg
  simp [isMeasure]

lemma filter_isMeasure_oracle (n oracleType oracleValue a : Nat) :
    (oracleGates n oracleType oracleValue a).filter isMeasure = [] := by
  rw [List.filter_eq_nil_iff]
  intro g hg
  unfold oracleGates at hg
  split at hg
  · split at hg <;> simp_all [isMeasure]
  · obtain ⟨i, _, hi⟩ := List.mem_filterMap.mp hg
    split at hi
    · cases hi
      simp [isMeasure]
    · cases hi

lemma filter_isMeasure_djCircuit (n oracleType oracleValue a : Nat) :
    (djCircuit n oracleType oracleValue a).filter isMeasure
      = (List.range n).map fun i => Gate.measure i i := by
  unfold djCircuit djPre djPost
  simp only [List.filter_append, filter_isMeasure_map_h,
    filter_isMeasure_oracle]
  have hmid : ([Gate.x n, Gate.h n, Gate.barrier].filter isMeasure) = [] := rfl
  have hbar : ([Gate.barrier].filter isMeasure) = ([] : List Gate) := rfl
  have hmeas : (((List.range n).map fun i => Gate.measure i i).filter isMeasure)
      = (List.range n).map fun i => Gate.measure i i := by
    rw [List.filter_eq_self]
    intro g hg
    obtain ⟨i, _, rfl⟩ := List.mem_map.mp hg
    rfl
  rw [hmid, hbar, hmeas]
  simp

/-- C10: for every choice of the random oracle parameters, the classical
register has size n and the constructed circuit measures exactly the n query
qubits, the i-th measurement mapping query qubit i to classical bit i; the
answer qubit n is never measured. -/
theorem djCircuit_measurements (n oracleType oracleValue a : Nat) :
    crSize n = n ∧
    (djCircuit n oracleType oracleValue a).filter isMeasure
        = ((List.range n).map fun i => Gate.measure i i) ∧
    ∀ q c, Gate.measure q c ∈ djCircuit n oracleType oracleValue a →
      q < n ∧ c < n := by
  refine ⟨rfl, filter_isMeasure_djCircuit n oracleType oracleValue a, ?_⟩
  intro q c hmem
  have hf : Gate.measure q c
      ∈ (djCircuit n oracleType oracleValue a).filter isMeasure :=
    List.mem_filter.mpr ⟨hmem, rfl⟩
  rw [filter_isMeasure_djCircuit] at hf
  obtain ⟨i, hi, heq⟩ := List.mem_map.mp hf
  cases heq
  have := List.mem_range.mp hi
  exact ⟨this, this⟩

/-- The message of the exception raised by the environment-setup cell. -/
def pythonVersionMsg : String := "Please use Python version 3.5 or greater."

/-- The Python version check at the top of cell 5: the cell raises an
Exception when sys.version_info is lexicographically below the pair (3, 5)
and otherwise continues normally. -/
def versionCheck (major minor : Nat) : Except String Unit :=
  if major < 3 ∨ (major = 3 ∧ minor < 5) then Except.error pythonVersionMsg
  else Except.ok ()

/-- Counterexample to C4: the notebook itself contains a code path that
raises an error: on a Python 2.7 interpreter the setup cell raises an
Exception of its own, so not every error surfaced during a run originates in
the external SDK. -/
theorem versionCheck_raises :
    versionCheck 2 7 = Except.error pythonVersionMsg := by
  rfl

/-- C4 amended: apart from the interpreter version check of the setup cell,
which raises an Exception exactly when the Python version is below 3.5, the
notebook does no retry, recovery or validation of its own; in particular the
remote execution timeout is surfaced by the external SDK.  The version check
raises on exactly the versions below 3.5. -/
theorem versionCheck_spec (major minor : Nat) :
    versionCheck major minor = Except.error pythonVersionMsg
      ↔ (major < 3 ∨ (major = 3 ∧ minor < 5)) := by
  unfold versionCheck
  split
  · simp_all
  · simp_all

/-- Model of the external numpy call np.random.randint(lo, hi), which returns
an integer uniformly drawn from lo inclusive to hi exclusive; the draw is
represented by an arbitrary natural number r, reduced into the interval.
The one-argument form used in the notebook, np.random.randint(2), has lo = 0
and hi = 2. -/
def npRandint (lo hi r : Nat) : Nat := lo + r % (hi - lo)

/-- The parameter-selection step of cell 9 with n = 15 as set in cell 7:
oracleType and oracleValue are drawn from randint(2), and only when
oracleType is nonzero is the hidden parameter a drawn from
randint(1, 2 ^ n). -/
def selectParams (n r1 r2 r3 : Nat) : Nat × Nat × Option Nat :=
  let oracleType := npRandint 0 2 r1
  let oracleValue := npRandint 0 2 r2
  (oracleType, oracleValue,
    if oracleType = 0 then none else some (npRandint 1 (2 ^ n) r3))

/-- C5: after the parameter-selection step with n = 15, oracleType and
oracleValue each take only the values 0 or 1, and when the hidden bitmask a
is selected it satisfies 1 <= a < 2 ^ 15, in particular it is nonzero. -/
theorem selectParams_in_range (r1 r2 r3 : Nat) :
    (selectParams 15 r1 r2 r3).1 < 2 ∧
    (selectParams 15 r1 r2 r3).2.1 < 2 ∧
    ∀ b, (selectParams 15 r1 r2 r3).2.2 = some b → 1 ≤ b ∧ b < 2 ^ 15 := by
  refine ⟨?_, ?_, ?_⟩
  · show npRandint 0 2 r1 < 2
    unfold npRandint
    omega
  · show npRandint 0 2 r2 < 2
    unfold npRandint
    omega
  · intro b hb
    simp only [selectParams] at hb
    split at hb
    · cases hb
    · cases hb
      unfold npRandint
      have : r3 % (2 ^ 15 - 1) < 2 ^ 15 - 1 := Nat.mod_lt r3 (by norm_num)
      omega

/-- Witness for C5 at a draw that selects the balanced oracle: r1 = 1 makes
oracleType equal 1, and the resulting hidden parameter lies in range. -/
theorem selectParams_in_range_witness :
    (selectParams 15 1 0 0).2.2 = some 1 ∧ 1 ≤ 1 ∧ 1 < 2 ^ 15 :=
  ⟨by decide, (selectParams_in_range 1 0 0).2.2 1 (by decide)⟩

/-- The observable steps of cells 9 and 11 in program order: selecting the
random oracle parameters, appending a gate call to the circuit, submitting
the circuit to a backend, reading back the counts, and plotting the
histogram. -/
inductive Event : Type
  | selectStep
  | appendGate (g : Gate)
  | executeCircuit (backend : String) (shots : Nat)
  | getCounts
  | plotHist
  deriving DecidableEq

/-- The sequence of steps a run of cells 9 and 11 performs, for a given draw
of the oracle parameters: parameter selection, then every gate call of the
circuit construction in order, then simulator execution with 1000 shots,
count retrieval, and the histogram plot. -/
def notebookTrace (oracleType oracleValue a : Nat) : List Event :=
  Event.selectStep ::
    ((djCircuit 15 oracleType oracleValue a).map Event.appendGate
      ++ [Event.executeCircuit "ibmqx_hpc_qasm_simulator" 1000,
          Event.getCounts, Event.plotHist])

/-- Phase number of a step: later phases of the run get larger numbers. -/
def phase : Event → Nat
  | Event.selectStep => 0
  | Event.appendGate _ => 1
  | Event.executeCircuit _ _ => 2
  | Event.getCounts => 3
  | Event.plotHist => 4

lemma pairwise_of_total {α : Type} {R : α → α → Prop} (h : ∀ a b, R a b) :
    ∀ l : List α, l.Pairwise R := by
  intro l
  induction l with
  | nil => exact List.Pairwise.nil
  | cons x xs ih => exact List.Pairwise.cons (fun y _ => h x y) ih

/-- C7: on every run, the steps occur in the stated order: the phase numbers
along the trace are monotone, so the oracle parameters are selected before
any gate call is appended, the complete circuit is constructed before the
backend is invoked, and the histogram is rendered only after execution has
returned its counts. -/
theorem notebookTrace_ordered (oracleType oracleValue a : Nat) :
    (notebookTrace oracleType oracleValue a).Pairwise
      fun e1 e2 => phase e1 ≤ phase e2 := by
  unfold notebookTrace
  refine List.Pairwise.cons (fun e _ => Nat.zero_le _) ?_
  refine List.pairwise_append.mpr ⟨?_, ?_, ?_⟩
  · rw [List.pairwise_map]
    exact pairwise_of_total (fun g1 g2 => Nat.le_refl 1) _
  · refine List.Pairwise.cons ?_ (List.Pairwise.cons ?_
      (List.Pairwise.cons ?_ List.Pairwise.nil)) <;>
      intro e he <;> fin_cases he <;> simp [phase]
  · intro e1 h1 e2 h2
    obtain ⟨g, _, rfl⟩ := List.mem_map.mp h1
    fin_cases h2 <;> simp [phase]

/-- Python dict assignment d[k] = v on a dictionary modelled as an
association list with distinct keys: if the key is present its value is
overwritten in place, otherwise the pair is appended at the end, matching
insertion order of Python dicts. -/
def dictInsert (l : List (String × Nat)) (k : String) (v : Nat) :
    List (String × Nat) :=
  if l.any fun kv => kv.1 = k then
    l.map fun kv => if kv.1 = k then (k, v) else kv
  else l ++ [(k, v)]

/-- The value removedCounts of cell 13: the sum of the counts of answer that
are strictly below the threshold. -/
def removedCounts (threshold : Nat) (answer : List (String × Nat)) : Nat :=
  ((answer.filter fun kv => kv.2 < threshold).map Prod.snd).sum

/-- The dictionary filteredAnswer of cell 13: the entries of answer whose
count is at least the threshold, followed by the assignment of removedCounts
to the key other_bitstring. -/
def filteredAnswer (threshold : Nat) (answer : List (String × Nat)) :
    List (String × Nat) :=
  dictInsert (answer.filter fun kv => threshold ≤ kv.2) "other_bitstring"
    (removedCounts threshold answer)

lemma sum_filter_split (threshold : Nat) :
    ∀ answer : List (String × Nat),
      (((answer.filter fun kv => threshold ≤ kv.2).map Prod.snd).sum)
          + removedCounts threshold answer
        = (answer.map Prod.snd).sum := by
  intro answer
  induction answer with
  | nil => rfl
  | cons kv rest ih =>
    unfold removedCounts at ih ⊢
    by_cases hk : threshold ≤ kv.2
    · have hk' : ¬(kv.2 < threshold) := by omega
      simp [List.filter_cons, hk, hk']
      omega
    · have hk' : kv.2 < threshold := by omega
      simp [List.filter_cons, hk, hk']
      omega

lemma dictInsert_of_not_mem (l : List (String × Nat)) (k : String) (v : Nat)
    (h : ∀ kv ∈ l, kv.1 ≠ k) : dictInsert l k v = l ++ [(k, v)] := by
  have hany : (l.any fun kv => kv.1 = k) = false := by
    rw [List.any_eq_false]
    intro kv hkv
    simpa using h kv hkv
  unfold dictInsert
  rw [hany]
  simp

lemma filteredAnswer_eq_append (threshold : Nat)
    (answer : List (String × Nat))
    (h : "other_bitstring" ∉ answer.map Prod.fst) :
    filteredAnswer threshold answer
      = (answer.filter fun kv => threshold ≤ kv.2)
          ++ [("other_bitstring", removedCounts threshold answer)] := by
  unfold filteredAnswer
  apply dictInsert_of_not_mem
  intro kv hkv hx
  exact h (List.mem_map.mpr ⟨kv, (List.mem_filter.mp hkv).1, hx⟩)

/-- C8: the real-device filtering step conserves total counts: for every
counts dictionary answer whose keys do not include the literal string
other_bitstring, the sum of the values of filteredAnswer, including the
other_bitstring entry, equals the sum of the values of answer. -/
theorem filteredAnswer_sum (threshold : Nat) (answer : List (String × Nat))
    (h : "other_bitstring" ∉ answer.map Prod.fst) :
    ((filteredAnswer threshold answer).map Prod.snd).sum
      = (answer.map Prod.snd).sum := by
  rw [filteredAnswer_eq_append threshold answer h, List.map_append,
    List.sum_append]
  simpa using sum_filter_split threshold answer

/-- Witness for C8 on a concrete counts dictionary with threshold 5. -/
theorem filteredAnswer_sum_witness :
    ("other_bitstring" ∉ ([("00", 7), ("01", 2)] : List (String × Nat)).map
        Prod.fst) ∧
    ((filteredAnswer 5 [("00", 7), ("01", 2)]).map Prod.snd).sum
      = (([("00", 7), ("01", 2)] : List (String × Nat)).map Prod.snd).sum :=
  ⟨by decide, filteredAnswer_sum 5 [("00", 7), ("01", 2)] (by decide)⟩

/-- Counterexample to C9: on a counts dictionary that happens to contain the
key other_bitstring with a count of 100, at least the threshold 30 used for
1000 shots, the filtered dictionary does not retain that pair with its count
unchanged: the assignment of removedCounts overwrites it. -/
theorem filteredAnswer_clobbers :
    30 ≤ 100 ∧
    ("other_bitstring", 100)
        ∈ ([("other_bitstring", 100)] : List (String × Nat)) ∧
    ("other_bitstring", 100) ∉ filteredAnswer 30 [("other_bitstring", 100)] := by
  refine ⟨by decide, by decide, ?_⟩
  decide

/-- C9 amended: for every counts dictionary answer whose keys do not include
the literal string other_bitstring, and every threshold, the filtered
dictionary contains exactly those key-value pairs of answer whose count is at
least the threshold, each with its count unchanged, followed by the single
key other_bitstring mapped to the sum of all counts strictly below the
threshold. -/
theorem filteredAnswer_spec (threshold : Nat) (answer : List (String × Nat))
    (h : "other_bitstring" ∉ answer.map Prod.fst) :
    filteredAnswer threshold answer
      = (answer.filter fun kv => threshold ≤ kv.2)
          ++ [("other_bitstring",
                ((answer.filter fun kv => kv.2 < threshold).map
                  Prod.snd).sum)] :=
  filteredAnswer_eq_append threshold answer h

/-- Witness for C9 on a concrete counts dictionary with threshold 5. -/
theorem filteredAnswer_spec_witness :
    ("other_bitstring" ∉ ([("00", 7), ("01", 2)] : List (String × Nat)).map
        Prod.fst) ∧
    filteredAnswer 5 [("00", 7), ("01", 2)]
      = [("00", 7), ("other_bitstring", 2)] := by
  refine ⟨by decide, ?_⟩
  rw [filteredAnswer_spec 5 [("00", 7), ("01", 2)] (by decide)]
  decide

/-- Counterexample to C6: the filtered dictionary plotted for the real-device
run contains the key other_bitstring, which is not a bitstring observed in
the backend results. -/
theorem filteredAnswer_has_synthetic_key :
    "other_bitstring"
        ∈ (filteredAnswer 30 [("00", 970), ("01", 30)]).map Prod.fst ∧
    "other_bitstring"
        ∉ ([("00", 970), ("01", 30)] : List (String × Nat)).map Prod.fst := by
  exact ⟨by decide, by decide⟩

/-- C6 amended: every key of the dictionary handed to plot_histogram in the
real-device cell is either a bitstring observed in the backend results, that
is a key of answer, or the one synthetic key other_bitstring that aggregates
the removed counts. -/
theorem filteredAnswer_keys (threshold : Nat) (answer : List (String × Nat))
    (k : String) (h : k ∈ (filteredAnswer threshold answer).map Prod.fst) :
    k ∈ answer.map Prod.fst ∨ k = "other_bitstring" := by
  unfold filteredAnswer dictInsert at h
  split at h
  · obtain ⟨kv, hkv, hk⟩ := List.mem_map.mp h
    obtain ⟨kv', hkv', hkv'eq⟩ := List.mem_map.mp hkv
    by_cases hc : kv'.1 = "other_bitstring"
    · rw [if_pos hc] at hkv'eq
      right
      rw [← hk, ← hkv'eq]
    · rw [if_neg hc] at hkv'eq
      left
      rw [← hk, ← hkv'eq]
      exact List.mem_map.mpr ⟨kv', (List.mem_filter.mp hkv').1, rfl⟩
  · rw [List.map_append] at h
    rcases List.mem_append.mp h with h' | h'
    · obtain ⟨kv, hkv, hk⟩ := List.mem_map.mp h'
      left
      rw [← hk]
      exact List.mem_map.mpr ⟨kv, (List.mem_filter.mp hkv).1, rfl⟩
    · right
      simpa using h'

/-- Witness for C6 amended on a concrete counts dictionary. -/
theorem filteredAnswer_keys_witness :
    ("00" ∈ (filteredAnswer 30 [("00", 1000)]).map Prod.fst) ∧
    ("00" ∈ ([("00", 1000)] : List (String × Nat)).map Prod.fst
      ∨ "00" = "other_bitstring") :=
  ⟨by decide, filteredAnswer_keys 30 [("00", 1000)] "00" (by decide)⟩

end DJNotebook
